import Mathlib

/-!
# Verification of the heredity inference engine

A shallow embedding, over exact rationals, of the exact-inference-by-enumeration
engine in `heredity.py`: the fixed conditional probability tables (`PROBS`), the
evidence filter in `main`, the subset enumerator (`powerset`), the joint
probability calculator (`joint_probability`), the marginal accumulator
(`update`) and the normalizer (`normalize`), together with the pipeline that
`main` runs over all enumerated worlds.

People are identified by their (unique) name strings; a dataset is an
association list of names to person records, mirroring the dictionary built by
`load_data`.  Sets of people (`one_gene`, `two_genes`, `have_trait`) are
`Finset String`, mirroring Python sets of names.
-/

namespace Heredity

/-- `PROBS["mutation"]`: the fixed mutation probability. -/
def mutation : ℚ := 1/100

/-- `PROBS["gene"]`: unconditional prior over gene-copy count.
Only ever consulted at 0, 1 or 2; other indices are unreachable. -/
def PROBS_gene : Nat → ℚ
  | 0 => 96/100
  | 1 => 3/100
  | 2 => 1/100
  | _ => 0

/-- `PROBS["trait"][g][t]`: probability of trait presence `t` given gene count `g`.
Only ever consulted at gene counts 0, 1 or 2; other indices are unreachable. -/
def PROBS_trait : Nat → Bool → ℚ
  | 2, true => 65/100
  | 2, false => 35/100
  | 1, true => 56/100
  | 1, false => 44/100
  | 0, true => 1/100
  | 0, false => 99/100
  | _, _ => 0

/-- One row of the dataset built by `load_data`: optional mother and father
names and the optional observed trait value. -/
structure Person where
  mother : Option String
  father : Option String
  trait : Option Bool
deriving DecidableEq, Repr

/-- The dataset: the `people` dictionary as an association list (dict keys are
unique, so well-formed datasets have pairwise distinct names). -/
abbrev People := List (String × Person)

/-- The gene count `joint_probability` and `update` assign to a person:
1 if in `one_gene`, else 2 if in `two_genes`, else 0. -/
def numGenes (person : String) (one_gene two_genes : Finset String) : Nat :=
  if person ∈ one_gene then 1 else if person ∈ two_genes then 2 else 0

/-- Python's membership test `x in s` where `x` may be `None`: `None` is never a
member of a set of names. -/
def memOpt (x : Option String) (s : Finset String) : Bool :=
  match x with
  | none => false
  | some a => a ∈ s

/-- The transmission probability `joint_probability` assigns to a parent field:
`0.5 if parent in one_gene else 1 - PROBS["mutation"] if parent in two_genes
else PROBS["mutation"]`. -/
def parentProb (parent : Option String) (one_gene two_genes : Finset String) : ℚ :=
  if memOpt parent one_gene then 1/2
  else if memOpt parent two_genes then 1 - mutation
  else mutation

/-- The `gene_prob` factor of `joint_probability` for one person: the prior for
founders, otherwise the convolution of the two parents' transmission
probabilities selected by the person's gene count. -/
def geneProb (person : String) (data : Person) (one_gene two_genes : Finset String) : ℚ :=
  if data.mother = none ∧ data.father = none then
    PROBS_gene (numGenes person one_gene two_genes)
  else
    let mother_prob := parentProb data.mother one_gene two_genes
    let father_prob := parentProb data.father one_gene two_genes
    if numGenes person one_gene two_genes = 0 then
      (1 - mother_prob) * (1 - father_prob)
    else if numGenes person one_gene two_genes = 1 then
      mother_prob * (1 - father_prob) + (1 - mother_prob) * father_prob
    else
      mother_prob * father_prob

/-- One person's full factor in `joint_probability`: `gene_prob * trait_prob`. -/
def personFactor (person : String) (data : Person)
    (one_gene two_genes have_trait : Finset String) : ℚ :=
  geneProb person data one_gene two_genes *
    PROBS_trait (numGenes person one_gene two_genes) (decide (person ∈ have_trait))

/-- `joint_probability(people, one_gene, two_genes, have_trait)`: the running
product over all people, starting from 1. -/
def jointProbability (people : People) (one_gene two_genes have_trait : Finset String) : ℚ :=
  people.foldl
    (fun probability pd => probability * personFactor pd.1 pd.2 one_gene two_genes have_trait) 1

/-- The `fails_evidence` check in `main`: some person has a known observed trait
value that differs from their membership in the candidate `have_trait` set. -/
def failsEvidence (people : People) (have_trait : Finset String) : Bool :=
  people.any fun pd =>
    match pd.2.trait with
    | none => false
    | some t => t != decide (pd.1 ∈ have_trait)

/-- `itertools.combinations(s, r)`: all size-`r` subsequences of the name list
(as lists; the enumeration order of the Python iterator is irrelevant to the
properties verified here). -/
def combinations (l : List String) (r : Nat) : List (List String) :=
  List.sublistsLen r l

/-- `powerset(s)` from `heredity.py`: chain the `r`-combinations for
`r = 0, ..., len(s)` and turn each into a set. -/
def powerset (l : List String) : List (Finset String) :=
  ((List.range (l.length + 1)).flatMap fun r => combinations l r).map List.toFinset

/-- The set difference `names - one_gene` used for the `two_genes` loop,
realised on the name list. -/
def setDiff (names : List String) (s : Finset String) : List String :=
  names.filter fun x => x ∉ s

/-- The pairs `(one_gene, two_genes)` visited by the two nested gene loops in
`main` for one surviving trait subset. -/
def genePairs (names : List String) : List (Finset String × Finset String) :=
  (powerset names).flatMap fun one_gene =>
    (powerset (setDiff names one_gene)).map fun two_genes => (one_gene, two_genes)

/-- One person's entry in the `probabilities` store: the three gene buckets and
the two trait buckets. -/
structure PDist where
  gene0 : ℚ
  gene1 : ℚ
  gene2 : ℚ
  traitTrue : ℚ
  traitFalse : ℚ
deriving DecidableEq, Repr

/-- The all-zero entry every person starts from in `main`. -/
def PDist.zero : PDist := ⟨0, 0, 0, 0, 0⟩

/-- `sum(probabilities[person]["gene"].values())`. -/
def geneSum (d : PDist) : ℚ := d.gene0 + d.gene1 + d.gene2

/-- `sum(probabilities[person]["trait"].values())`. -/
def traitSum (d : PDist) : ℚ := d.traitTrue + d.traitFalse

/-- The effect of one `update` call on one person's entry: add `p` to the gene
bucket selected by the person's gene count, add `p` to the trait bucket selected
by membership in `have_trait` (and 0 to the other trait bucket). -/
def updatePerson (person : String) (one_gene two_genes have_trait : Finset String)
    (p : ℚ) (d : PDist) : PDist :=
  { gene0 := d.gene0 + (if numGenes person one_gene two_genes = 0 then p else 0)
    gene1 := d.gene1 + (if numGenes person one_gene two_genes = 1 then p else 0)
    gene2 := d.gene2 + (if numGenes person one_gene two_genes = 2 then p else 0)
    traitTrue := d.traitTrue + (if person ∈ have_trait then p else 0)
    traitFalse := d.traitFalse + (if person ∉ have_trait then p else 0) }

/-- `update(probabilities, one_gene, two_genes, have_trait, p)`: every person's
entry is updated. -/
def update (store : List (String × PDist)) (one_gene two_genes have_trait : Finset String)
    (p : ℚ) : List (String × PDist) :=
  store.map fun pd => (pd.1, updatePerson pd.1 one_gene two_genes have_trait p pd.2)

/-- The gene half of `normalize` for one person: divide the three gene buckets
by their sum when that sum is strictly positive. -/
def normGene (d : PDist) : PDist :=
  let gene_sum := geneSum d
  if 0 < gene_sum then
    { d with gene0 := d.gene0 / gene_sum, gene1 := d.gene1 / gene_sum,
             gene2 := d.gene2 / gene_sum }
  else d

/-- The trait half of `normalize` for one person: divide the two trait buckets
by their sum when that sum is strictly positive. -/
def normTrait (d : PDist) : PDist :=
  let trait_sum := traitSum d
  if 0 < trait_sum then
    { d with traitTrue := d.traitTrue / trait_sum, traitFalse := d.traitFalse / trait_sum }
  else d

/-- `normalize` for one person: the gene buckets are rescaled first, then the
trait buckets (the two halves touch disjoint fields). -/
def normalizePerson (d : PDist) : PDist :=
  normTrait (normGene d)

/-- `normalize(probabilities)`: every person's entry is normalized. -/
def normalize (store : List (String × PDist)) : List (String × PDist) :=
  store.map fun pd => (pd.1, normalizePerson pd.2)

/-- The initial `probabilities` store built in `main`: all buckets zero. -/
def initStore (people : People) : List (String × PDist) :=
  people.map fun pd => (pd.1, PDist.zero)

/-- A world triple together with its joint probability, as passed to `update`. -/
abbrev WorldUpdate := (Finset String × Finset String × Finset String) × ℚ

/-- A finite sequence of `update` calls applied in order to a store. -/
def applyUpdates (store : List (String × PDist)) (ws : List WorldUpdate) :
    List (String × PDist) :=
  ws.foldl (fun st w => update st w.1.1 w.1.2.1 w.1.2.2 w.2) store

/-- The accumulation loop of `main`: for every evidence-consistent trait subset
and every `(one_gene, two_genes)` pair, add the world's joint probability into
the store. -/
def accumulate (people : People) : List (String × PDist) :=
  let names := people.map Prod.fst
  ((powerset names).filter fun have_trait => ! failsEvidence people have_trait).foldl
    (fun st have_trait =>
      (powerset names).foldl
        (fun st one_gene =>
          (powerset (setDiff names one_gene)).foldl
            (fun st two_genes =>
              update st one_gene two_genes have_trait
                (jointProbability people one_gene two_genes have_trait))
            st)
        st)
    (initStore people)

/-- The full pipeline of `main` after loading: enumerate, accumulate, normalize. -/
def simulate (people : People) : List (String × PDist) :=
  normalize (accumulate people)

/-! ## Claim theorems and supporting lemmas -/

/-- **C1.** For every world and every person whose mother and father fields are
both non-null, the gene-count factor of `joint_probability` assigns each parent
a transmission probability (0.5 if that parent is in `one_gene`, 1 minus the
mutation rate 0.01 if in `two_genes`, the mutation rate 0.01 otherwise) and
combines them as P(0) = (1−m)(1−f), P(1) = m(1−f) + (1−m)f, P(2) = m·f,
selecting the value matching the person's gene count in the world. -/
theorem geneProb_both_parents (one_gene two_genes : Finset String) (person : String)
    (data : Person) (mm ff : String)
    (hm : data.mother = some mm) (hf : data.father = some ff) :
    geneProb person data one_gene two_genes =
      (let m : ℚ := if mm ∈ one_gene then 1/2 else if mm ∈ two_genes then 1 - 1/100 else 1/100
       let f : ℚ := if ff ∈ one_gene then 1/2 else if ff ∈ two_genes then 1 - 1/100 else 1/100
       if person ∈ one_gene then m * (1 - f) + (1 - m) * f
       else if person ∈ two_genes then m * f
       else (1 - m) * (1 - f)) := by
  simp only [geneProb, hm, hf]
  rw [if_neg (by simp)]
  simp only [parentProb, memOpt, numGenes, mutation]
  by_cases h1 : person ∈ one_gene <;> by_cases h2 : person ∈ two_genes <;>
    simp [h1, h2]

theorem geneProb_both_parents_witness :
    geneProb "c" ⟨some "m", some "f", none⟩ {"c"} {"m"} = 4901/5000 := by
  rw [geneProb_both_parents {"c"} {"m"} "c" ⟨some "m", some "f", none⟩ "m" "f" rfl rfl]
  simp
  norm_num

theorem failsEvidence_entry_iff (t : Option Bool) (b : Prop) [Decidable b] :
    ((match t with
      | none => false
      | some t => t != decide b) = true) ↔
      (t = some true ∧ ¬b) ∨ (t = some false ∧ b) := by
  rcases t with _ | t
  · simp
  · cases t <;> by_cases hb : b <;> simp [hb]

/-- **C2.** The evidence filter rejects a candidate trait subset if and only if
some person with a non-null observed trait value is contradicted by the subset
(observed-true person absent from it, or observed-false person present in it);
people with unknown observed trait never cause rejection. -/
theorem failsEvidence_iff (people : People) (have_trait : Finset String) :
    failsEvidence people have_trait = true ↔
      ∃ pd ∈ people,
        (pd.2.trait = some true ∧ pd.1 ∉ have_trait) ∨
        (pd.2.trait = some false ∧ pd.1 ∈ have_trait) := by
  simp only [failsEvidence, List.any_eq_true]
  refine exists_congr fun pd => and_congr_right fun _ => ?_
  exact failsEvidence_entry_iff pd.2.trait (pd.1 ∈ have_trait)

/-- **C8.** A parent identifier that is `None` or names someone in neither
`one_gene` nor `two_genes` is silently assigned transmission probability equal
to the mutation rate 0.01 — exactly as a zero-copy parent would be — and the
gene-count factor is computed normally from it whenever the person is not a
founder. -/
theorem parentProb_unknown (one_gene two_genes : Finset String) (parent : Option String)
    (h : ∀ a, parent = some a → a ∉ one_gene ∧ a ∉ two_genes) :
    parentProb parent one_gene two_genes = mutation ∧
    (∀ person fa t, ¬(parent = none ∧ fa = none) →
      geneProb person ⟨parent, fa, t⟩ one_gene two_genes =
        (let f := parentProb fa one_gene two_genes
         if person ∈ one_gene then mutation * (1 - f) + (1 - mutation) * f
         else if person ∈ two_genes then mutation * f
         else (1 - mutation) * (1 - f))) ∧
    (∀ person mo t, ¬(mo = none ∧ parent = none) →
      geneProb person ⟨mo, parent, t⟩ one_gene two_genes =
        (let m := parentProb mo one_gene two_genes
         if person ∈ one_gene then m * (1 - mutation) + (1 - m) * mutation
         else if person ∈ two_genes then m * mutation
         else (1 - m) * (1 - mutation))) := by
  have hpp : parentProb parent one_gene two_genes = mutation := by
    rcases parent with _ | a
    · simp [parentProb, memOpt]
    · obtain ⟨h1, h2⟩ := h a rfl
      simp [parentProb, memOpt, h1, h2]
  refine ⟨hpp, ?_, ?_⟩
  · intro person fa t hne
    simp only [geneProb]
    rw [if_neg (by simpa using hne)]
    simp only [hpp, numGenes]
    by_cases h1 : person ∈ one_gene <;> by_cases h2 : person ∈ two_genes <;> simp [h1, h2]
  · intro person mo t hne
    simp only [geneProb]
    rw [if_neg (by simpa using hne)]
    simp only [hpp, numGenes]
    by_cases h1 : person ∈ one_gene <;> by_cases h2 : person ∈ two_genes <;> simp [h1, h2]

theorem parentProb_unknown_witness :
    parentProb (some "x") {"a"} {"b"} = mutation :=
  (parentProb_unknown {"a"} {"b"} (some "x")
    (fun a ha => by cases ha; exact ⟨by decide, by decide⟩)).1

theorem normGene_pos_eq (d : PDist) (h : 0 < geneSum d) :
    normGene d = { d with gene0 := d.gene0 / geneSum d, gene1 := d.gene1 / geneSum d,
                          gene2 := d.gene2 / geneSum d } := by
  simp only [normGene]
  exact if_pos h

theorem normGene_neg_eq (d : PDist) (h : ¬0 < geneSum d) : normGene d = d := by
  simp only [normGene]
  exact if_neg h

theorem normTrait_pos_eq (d : PDist) (h : 0 < traitSum d) :
    normTrait d = { d with traitTrue := d.traitTrue / traitSum d,
                           traitFalse := d.traitFalse / traitSum d } := by
  simp only [normTrait]
  exact if_pos h

theorem normTrait_neg_eq (d : PDist) (h : ¬0 < traitSum d) : normTrait d = d := by
  simp only [normTrait]
  exact if_neg h

theorem normGene_trait_fields (d : PDist) :
    (normGene d).traitTrue = d.traitTrue ∧ (normGene d).traitFalse = d.traitFalse := by
  by_cases h : 0 < geneSum d
  · rw [normGene_pos_eq d h]; exact ⟨rfl, rfl⟩
  · rw [normGene_neg_eq d h]; exact ⟨rfl, rfl⟩

theorem normTrait_gene_fields (d : PDist) :
    (normTrait d).gene0 = d.gene0 ∧ (normTrait d).gene1 = d.gene1 ∧
      (normTrait d).gene2 = d.gene2 := by
  by_cases h : 0 < traitSum d
  · rw [normTrait_pos_eq d h]; exact ⟨rfl, rfl, rfl⟩
  · rw [normTrait_neg_eq d h]; exact ⟨rfl, rfl, rfl⟩

theorem traitSum_normGene (d : PDist) : traitSum (normGene d) = traitSum d := by
  obtain ⟨h1, h2⟩ := normGene_trait_fields d
  simp [traitSum, h1, h2]

theorem geneSum_normTrait (d : PDist) : geneSum (normTrait d) = geneSum d := by
  obtain ⟨h1, h2, h3⟩ := normTrait_gene_fields d
  simp [geneSum, h1, h2, h3]

theorem geneSum_normGene_pos (d : PDist) (h : 0 < geneSum d) :
    geneSum (normGene d) = 1 := by
  rw [normGene_pos_eq d h]
  simp only [geneSum]
  rw [div_add_div_same, div_add_div_same]
  exact div_self (ne_of_gt h)

theorem traitSum_normTrait_pos (d : PDist) (h : 0 < traitSum d) :
    traitSum (normTrait d) = 1 := by
  rw [normTrait_pos_eq d h]
  simp only [traitSum]
  rw [div_add_div_same]
  exact div_self (ne_of_gt h)

/-- **C3.** For each of the two accumulated distributions, `normalize` divides
every bucket by the bucket sum when that sum is strictly positive, so the
resulting distribution sums exactly to 1 over exact rationals; when the bucket
sum is zero (as for an evidence-contradictory dataset, whose buckets are all
zero since they are non-negative), the distribution is left all-zero and no
division is performed. -/
theorem normalizePerson_spec (d : PDist)
    (hg0 : 0 ≤ d.gene0) (hg1 : 0 ≤ d.gene1) (hg2 : 0 ≤ d.gene2)
    (ht0 : 0 ≤ d.traitTrue) (ht1 : 0 ≤ d.traitFalse) :
    (0 < geneSum d →
      (normalizePerson d).gene0 = d.gene0 / geneSum d ∧
      (normalizePerson d).gene1 = d.gene1 / geneSum d ∧
      (normalizePerson d).gene2 = d.gene2 / geneSum d ∧
      geneSum (normalizePerson d) = 1) ∧
    (geneSum d = 0 →
      (normalizePerson d).gene0 = 0 ∧ (normalizePerson d).gene1 = 0 ∧
      (normalizePerson d).gene2 = 0 ∧
      (normalizePerson d).gene0 = d.gene0 ∧ (normalizePerson d).gene1 = d.gene1 ∧
      (normalizePerson d).gene2 = d.gene2) ∧
    (0 < traitSum d →
      (normalizePerson d).traitTrue = d.traitTrue / traitSum d ∧
      (normalizePerson d).traitFalse = d.traitFalse / traitSum d ∧
      traitSum (normalizePerson d) = 1) ∧
    (traitSum d = 0 →
      (normalizePerson d).traitTrue = 0 ∧ (normalizePerson d).traitFalse = 0 ∧
      (normalizePerson d).traitTrue = d.traitTrue ∧
      (normalizePerson d).traitFalse = d.traitFalse) := by
  obtain ⟨e1, e2, e3⟩ := normTrait_gene_fields (normGene d)
  obtain ⟨f1, f2⟩ := normGene_trait_fields d
  refine ⟨?_, ?_, ?_, ?_⟩
  · intro h
    rw [normalizePerson, e1, e2, e3, geneSum_normTrait, normGene_pos_eq d h]
    refine ⟨rfl, rfl, rfl, ?_⟩
    rw [← normGene_pos_eq d h]
    exact geneSum_normGene_pos d h
  · intro h
    have z0 : d.gene0 = 0 := by simp only [geneSum] at h; linarith
    have z1 : d.gene1 = 0 := by simp only [geneSum] at h; linarith
    have z2 : d.gene2 = 0 := by simp only [geneSum] at h; linarith
    have hng : normGene d = d := normGene_neg_eq d (by rw [h]; exact lt_irrefl 0)
    rw [normalizePerson, e1, e2, e3, hng]
    exact ⟨z0, z1, z2, rfl, rfl, rfl⟩
  · intro h
    have h2 : 0 < traitSum (normGene d) := by rw [traitSum_normGene]; exact h
    have e := normTrait_pos_eq (normGene d) h2
    have hsum := traitSum_normTrait_pos (normGene d) h2
    rw [normalizePerson, e]
    dsimp only
    rw [f1, f2, traitSum_normGene]
    refine ⟨rfl, rfl, ?_⟩
    rw [e] at hsum
    rw [f1, f2, traitSum_normGene] at hsum
    exact hsum
  · intro h
    have z0 : d.traitTrue = 0 := by simp only [traitSum] at h; linarith
    have z1 : d.traitFalse = 0 := by simp only [traitSum] at h; linarith
    have hnt : normTrait (normGene d) = normGene d :=
      normTrait_neg_eq (normGene d) (by rw [traitSum_normGene, h]; exact lt_irrefl 0)
    rw [normalizePerson, hnt, f1, f2]
    exact ⟨z0, z1, rfl, rfl⟩

theorem normalizePerson_spec_witness :
    (0 ≤ (4:ℚ)) ∧
    ((0 < geneSum ⟨1, 1, 2, 0, 0⟩ →
      (normalizePerson ⟨1, 1, 2, 0, 0⟩).gene0 = 1 / geneSum ⟨1, 1, 2, 0, 0⟩ ∧
      (normalizePerson ⟨1, 1, 2, 0, 0⟩).gene1 = 1 / geneSum ⟨1, 1, 2, 0, 0⟩ ∧
      (normalizePerson ⟨1, 1, 2, 0, 0⟩).gene2 = 2 / geneSum ⟨1, 1, 2, 0, 0⟩ ∧
      geneSum (normalizePerson ⟨1, 1, 2, 0, 0⟩) = 1) ∧
    (geneSum ⟨1, 1, 2, 0, 0⟩ = 0 →
      (normalizePerson ⟨1, 1, 2, 0, 0⟩).gene0 = 0 ∧
      (normalizePerson ⟨1, 1, 2, 0, 0⟩).gene1 = 0 ∧
      (normalizePerson ⟨1, 1, 2, 0, 0⟩).gene2 = 0 ∧
      (normalizePerson ⟨1, 1, 2, 0, 0⟩).gene0 = 1 ∧
      (normalizePerson ⟨1, 1, 2, 0, 0⟩).gene1 = 1 ∧
      (normalizePerson ⟨1, 1, 2, 0, 0⟩).gene2 = 2) ∧
    (0 < traitSum ⟨1, 1, 2, 0, 0⟩ →
      (normalizePerson ⟨1, 1, 2, 0, 0⟩).traitTrue = 0 / traitSum ⟨1, 1, 2, 0, 0⟩ ∧
      (normalizePerson ⟨1, 1, 2, 0, 0⟩).traitFalse = 0 / traitSum ⟨1, 1, 2, 0, 0⟩ ∧
      traitSum (normalizePerson ⟨1, 1, 2, 0, 0⟩) = 1) ∧
    (traitSum ⟨1, 1, 2, 0, 0⟩ = 0 →
      (normalizePerson ⟨1, 1, 2, 0, 0⟩).traitTrue = 0 ∧
      (normalizePerson ⟨1, 1, 2, 0, 0⟩).traitFalse = 0 ∧
      (normalizePerson ⟨1, 1, 2, 0, 0⟩).traitTrue = 0 ∧
      (normalizePerson ⟨1, 1, 2, 0, 0⟩).traitFalse = 0)) :=
  ⟨by norm_num,
   normalizePerson_spec ⟨1, 1, 2, 0, 0⟩ (by norm_num) (by norm_num) (by norm_num)
     (by norm_num) (by norm_num)⟩

theorem normGene_idem (d : PDist) : normGene (normGene d) = normGene d := by
  by_cases h : 0 < geneSum d
  · have h1 : geneSum (normGene d) = 1 := geneSum_normGene_pos d h
    rw [normGene_pos_eq (normGene d) (by rw [h1]; norm_num), h1]
    simp
  · rw [normGene_neg_eq d h, normGene_neg_eq d h]

theorem normTrait_idem (d : PDist) : normTrait (normTrait d) = normTrait d := by
  by_cases h : 0 < traitSum d
  · have h1 : traitSum (normTrait d) = 1 := traitSum_normTrait_pos d h
    rw [normTrait_pos_eq (normTrait d) (by rw [h1]; norm_num), h1]
    simp
  · rw [normTrait_neg_eq d h, normTrait_neg_eq d h]

theorem normGene_normTrait_comm (d : PDist) :
    normGene (normTrait d) = normTrait (normGene d) := by
  by_cases hg : 0 < geneSum d <;> by_cases ht : 0 < traitSum d
  · have hG2 : 0 < geneSum (normTrait d) := by rw [geneSum_normTrait]; exact hg
    have hT2 : 0 < traitSum (normGene d) := by rw [traitSum_normGene]; exact ht
    rw [normGene_pos_eq (normTrait d) hG2, normTrait_pos_eq (normGene d) hT2,
      geneSum_normTrait, traitSum_normGene, normTrait_pos_eq d ht, normGene_pos_eq d hg]
  · have hT2 : ¬0 < traitSum (normGene d) := by rw [traitSum_normGene]; exact ht
    rw [normTrait_neg_eq d ht, normTrait_neg_eq (normGene d) hT2]
  · have hG2 : ¬0 < geneSum (normTrait d) := by rw [geneSum_normTrait]; exact hg
    rw [normGene_neg_eq d hg, normGene_neg_eq (normTrait d) hG2]
  · rw [normTrait_neg_eq d ht, normGene_neg_eq d hg, normTrait_neg_eq d ht]

theorem normalizePerson_idem (d : PDist) :
    normalizePerson (normalizePerson d) = normalizePerson d := by
  simp only [normalizePerson]
  rw [normGene_normTrait_comm (normGene d), normGene_idem d, normTrait_idem (normGene d)]

/-- **C10.** `normalize` is idempotent over exact rationals: applying it twice
to any marginal-distribution store yields exactly the same store as applying it
once. -/
theorem normalize_idem (store : List (String × PDist)) :
    Heredity.normalize (Heredity.normalize store) = Heredity.normalize store := by
  simp only [Heredity.normalize, List.map_map]
  simp [Function.comp_def, normalizePerson_idem]

theorem geneSum_updatePerson (person : String) (og tg ht : Finset String) (p : ℚ) (d : PDist) :
    geneSum (updatePerson person og tg ht p d) = geneSum d + p ∧
    traitSum (updatePerson person og tg ht p d) = traitSum d + p := by
  constructor <;>
  · simp only [updatePerson, geneSum, traitSum, numGenes]
    by_cases h1 : person ∈ og <;> by_cases h2 : person ∈ tg <;> by_cases h3 : person ∈ ht <;>
      simp [h1, h2, h3] <;> ring

theorem applyUpdates_eq_map (ws : List WorldUpdate) (store : List (String × PDist)) :
    applyUpdates store ws =
      store.map fun pd =>
        (pd.1, ws.foldl (fun d w => updatePerson pd.1 w.1.1 w.1.2.1 w.1.2.2 w.2 d) pd.2) := by
  induction ws generalizing store with
  | nil => simp [applyUpdates]
  | cons w ws ih =>
    have h0 : applyUpdates store (w :: ws) =
        applyUpdates (update store w.1.1 w.1.2.1 w.1.2.2 w.2) ws := rfl
    rw [h0, ih]
    simp [update, List.map_map, Function.comp_def]

theorem foldl_updatePerson_sums (person : String) (ws : List WorldUpdate) (d : PDist) :
    geneSum (ws.foldl (fun d w => updatePerson person w.1.1 w.1.2.1 w.1.2.2 w.2 d) d) =
      geneSum d + (ws.map fun w => w.2).sum ∧
    traitSum (ws.foldl (fun d w => updatePerson person w.1.1 w.1.2.1 w.1.2.2 w.2 d) d) =
      traitSum d + (ws.map fun w => w.2).sum := by
  induction ws generalizing d with
  | nil => simp
  | cons w ws ih =>
    simp only [List.foldl_cons, List.map_cons, List.sum_cons]
    obtain ⟨h1, h2⟩ := ih (updatePerson person w.1.1 w.1.2.1 w.1.2.2 w.2 d)
    obtain ⟨g1, g2⟩ := geneSum_updatePerson person w.1.1 w.1.2.1 w.1.2.2 w.2 d
    rw [h1, h2, g1, g2]
    constructor <;> ring

/-- **C9.** Each `update` call adds exactly `p` to one gene bucket and exactly
`p` to one trait bucket per person, so starting from the all-zero store, after
any finite sequence of `update` calls every person's three gene buckets and two
trait buckets have equal sums, both equal to the total of all accumulated
values. -/
theorem update_sum_invariant (people : People) (ws : List WorldUpdate) :
    (∀ person og tg ht p d,
      geneSum (updatePerson person og tg ht p d) = geneSum d + p ∧
      traitSum (updatePerson person og tg ht p d) = traitSum d + p) ∧
    ∀ pd ∈ applyUpdates (initStore people) ws,
      geneSum pd.2 = traitSum pd.2 ∧ geneSum pd.2 = (ws.map fun w => w.2).sum := by
  refine ⟨fun person og tg ht p d => geneSum_updatePerson person og tg ht p d, ?_⟩
  intro pd hpd
  rw [applyUpdates_eq_map] at hpd
  simp only [initStore, List.map_map, List.mem_map, Function.comp_def] at hpd
  obtain ⟨q, _, rfl⟩ := hpd
  obtain ⟨h1, h2⟩ := foldl_updatePerson_sums q.1 ws PDist.zero
  have hz1 : geneSum PDist.zero = 0 := by simp [geneSum, PDist.zero]
  have hz2 : traitSum PDist.zero = 0 := by simp [traitSum, PDist.zero]
  rw [hz1, zero_add] at h1
  rw [hz2, zero_add] at h2
  exact ⟨h1.trans h2.symm, h1⟩

theorem parentProb_bounds (parent : Option String) (one_gene two_genes : Finset String) :
    0 ≤ parentProb parent one_gene two_genes ∧ parentProb parent one_gene two_genes ≤ 1 := by
  unfold parentProb mutation
  split_ifs <;> norm_num

theorem PROBS_gene_bounds (n : Nat) : 0 ≤ PROBS_gene n ∧ PROBS_gene n ≤ 1 := by
  rcases n with _ | _ | _ | n <;> constructor <;> simp [PROBS_gene] <;> norm_num

theorem PROBS_trait_bounds (n : Nat) (b : Bool) :
    0 ≤ PROBS_trait n b ∧ PROBS_trait n b ≤ 1 := by
  rcases n with _ | _ | _ | n <;> cases b <;> constructor <;> simp [PROBS_trait] <;> norm_num

theorem geneProb_bounds (person : String) (data : Person) (one_gene two_genes : Finset String) :
    0 ≤ geneProb person data one_gene two_genes ∧ geneProb person data one_gene two_genes ≤ 1 := by
  obtain ⟨m0, m1⟩ := parentProb_bounds data.mother one_gene two_genes
  obtain ⟨f0, f1⟩ := parentProb_bounds data.father one_gene two_genes
  simp only [geneProb]
  split_ifs
  · exact PROBS_gene_bounds _
  · constructor <;> nlinarith
  · constructor <;> nlinarith
  · constructor <;> nlinarith

theorem personFactor_bounds (person : String) (data : Person)
    (one_gene two_genes have_trait : Finset String) :
    0 ≤ personFactor person data one_gene two_genes have_trait ∧
      personFactor person data one_gene two_genes have_trait ≤ 1 := by
  obtain ⟨g0, g1⟩ := geneProb_bounds person data one_gene two_genes
  obtain ⟨t0, t1⟩ := PROBS_trait_bounds (numGenes person one_gene two_genes)
    (decide (person ∈ have_trait))
  unfold personFactor
  constructor
  · exact mul_nonneg g0 t0
  · nlinarith

theorem foldl_personFactor_bounds (people : People)
    (one_gene two_genes have_trait : Finset String) :
    ∀ acc : ℚ, 0 ≤ acc → acc ≤ 1 →
      0 ≤ people.foldl
            (fun probability pd =>
              probability * personFactor pd.1 pd.2 one_gene two_genes have_trait) acc ∧
      people.foldl
          (fun probability pd =>
            probability * personFactor pd.1 pd.2 one_gene two_genes have_trait) acc ≤ 1 := by
  induction people with
  | nil => exact fun acc h0 h1 => ⟨h0, h1⟩
  | cons pd rest ih =>
    intro acc h0 h1
    simp only [List.foldl_cons]
    obtain ⟨p0, p1⟩ := personFactor_bounds pd.1 pd.2 one_gene two_genes have_trait
    exact ih _ (mul_nonneg h0 p0) (by nlinarith)

/-- **C4.** For every dataset and every world, `joint_probability` returns a
value in the closed interval [0, 1]; for the empty dataset it returns 1, the
empty product. -/
theorem jointProbability_bounds (people : People)
    (one_gene two_genes have_trait : Finset String) :
    0 ≤ jointProbability people one_gene two_genes have_trait ∧
    jointProbability people one_gene two_genes have_trait ≤ 1 ∧
    jointProbability [] one_gene two_genes have_trait = 1 := by
  obtain ⟨h0, h1⟩ := foldl_personFactor_bounds people one_gene two_genes have_trait 1
    (by norm_num) (by norm_num)
  exact ⟨h0, h1, rfl⟩

/-- **C6.** For a dataset containing a single founder with unknown observed
trait, the full pipeline (enumerate, accumulate, normalize) over exact
rationals yields a posterior gene-count distribution equal to the prior table
{0: 0.96, 1: 0.03, 2: 0.01} and a posterior trait distribution equal to the
prior-weighted average of the trait CPT, P(trait) = Σ over g of
prior(g) · P(trait | g). -/
theorem simulate_founder_no_evidence (name : String) :
    simulate [(name, ⟨none, none, none⟩)] =
      [(name,
        { gene0 := 96/100, gene1 := 3/100, gene2 := 1/100,
          traitTrue := PROBS_gene 0 * PROBS_trait 0 true + PROBS_gene 1 * PROBS_trait 1 true +
            PROBS_gene 2 * PROBS_trait 2 true,
          traitFalse := PROBS_gene 0 * PROBS_trait 0 false + PROBS_gene 1 * PROBS_trait 1 false +
            PROBS_gene 2 * PROBS_trait 2 false })] := by
  have hp : powerset [name] = [∅, {name}] := by
    simp [powerset, combinations, List.range_succ, List.sublistsLen_succ_cons,
      List.sublistsLen_succ_nil, List.sublistsLen_zero]
  have h1 : setDiff [name] ∅ = [name] := by simp [setDiff]
  have h2 : setDiff [name] {name} = [] := by simp [setDiff]
  have h3 : powerset ([] : List String) = [∅] := by decide
  norm_num [simulate, accumulate, initStore, hp, h1, h2, h3, update, updatePerson,
    Heredity.normalize, normalizePerson, normGene, normTrait, jointProbability, personFactor,
    geneProb, parentProb, memOpt, numGenes, failsEvidence, PROBS_gene, PROBS_trait,
    mutation, geneSum, traitSum, PDist.zero]

/-- **C7.** For a dataset containing a single founder observed to have the
trait, the full pipeline over exact rationals yields posterior trait
distribution exactly {true: 1, false: 0}, and posterior gene-count distribution
proportional to {0: 0.96×0.01, 1: 0.03×0.56, 2: 0.01×0.65} — the prior
reweighted by P(trait=true | gene-count) — normalized to sum to 1. -/
theorem simulate_founder_trait_true (name : String) :
    simulate [(name, ⟨none, none, some true⟩)] =
      [(name,
        { gene0 := (96/100 * (1/100)) /
            (96/100 * (1/100) + 3/100 * (56/100) + 1/100 * (65/100)),
          gene1 := (3/100 * (56/100)) /
            (96/100 * (1/100) + 3/100 * (56/100) + 1/100 * (65/100)),
          gene2 := (1/100 * (65/100)) /
            (96/100 * (1/100) + 3/100 * (56/100) + 1/100 * (65/100)),
          traitTrue := 1, traitFalse := 0 })] := by
  have hp : powerset [name] = [∅, {name}] := by
    simp [powerset, combinations, List.range_succ, List.sublistsLen_succ_cons,
      List.sublistsLen_succ_nil, List.sublistsLen_zero]
  have h1 : setDiff [name] ∅ = [name] := by simp [setDiff]
  have h2 : setDiff [name] {name} = [] := by simp [setDiff]
  have h3 : powerset ([] : List String) = [∅] := by decide
  norm_num [simulate, accumulate, initStore, hp, h1, h2, h3, update, updatePerson,
    Heredity.normalize, normalizePerson, normGene, normTrait, jointProbability, personFactor,
    geneProb, parentProb, memOpt, numGenes, failsEvidence, PROBS_gene, PROBS_trait,
    mutation, geneSum, traitSum, PDist.zero]

theorem powerset_perm (l : List String) :
    (powerset l).Perm ((List.sublists' l).map List.toFinset) :=
  (List.range_bind_sublistsLen_perm l).map List.toFinset

theorem mem_powerset {l : List String} {s : Finset String} :
    s ∈ powerset l ↔ s ⊆ l.toFinset := by
  rw [(powerset_perm l).mem_iff, List.mem_map]
  constructor
  · rintro ⟨x, hx, rfl⟩
    intro a ha
    rw [List.mem_toFinset] at *
    exact (List.mem_sublists'.1 hx).subset ha
  · intro hs
    refine ⟨l.filter (fun a => a ∈ s), List.mem_sublists'.2 (List.filter_sublist l), ?_⟩
    ext a
    simp only [List.mem_toFinset, List.mem_filter, decide_eq_true_eq]
    constructor
    · exact fun h => h.2
    · intro ha
      have := hs ha
      rw [List.mem_toFinset] at this
      exact ⟨this, ha⟩

theorem sublist_toFinset_inj :
    ∀ {l x y : List String}, l.Nodup → x.Sublist l → y.Sublist l →
      x.toFinset = y.toFinset → x = y := by
  intro l
  induction l with
  | nil =>
    intro x y _ hx hy _
    rw [List.sublist_nil.1 hx, List.sublist_nil.1 hy]
  | cons a l ih =>
    intro x y hnd hx hy hxy
    have hal : a ∉ l := (List.nodup_cons.1 hnd).1
    have hl : l.Nodup := (List.nodup_cons.1 hnd).2
    rcases List.sublist_cons_iff.1 hx with hx' | ⟨x', rfl, hx'⟩
    · rcases List.sublist_cons_iff.1 hy with hy' | ⟨y', rfl, hy'⟩
      · exact ih hl hx' hy' hxy
      · exfalso
        have hay : a ∈ y'.toFinset ∨ a = a := by right; rfl
        have : a ∈ x.toFinset := by
          rw [hxy]; simp
        rw [List.mem_toFinset] at this
        exact hal (hx'.subset this)
    · rcases List.sublist_cons_iff.1 hy with hy' | ⟨y', rfl, hy'⟩
      · exfalso
        have : a ∈ y.toFinset := by
          rw [← hxy]; simp
        rw [List.mem_toFinset] at this
        exact hal (hy'.subset this)
      · have hax : a ∉ x' := fun hc => hal (hx'.subset hc)
        have hay : a ∉ y' := fun hc => hal (hy'.subset hc)
        have : x'.toFinset = y'.toFinset := by
          ext b
          by_cases hb : b = a
          · subst hb
            simp [List.mem_toFinset, hax, hay]
          · have := congrArg (fun s => b ∈ s) hxy
            simp only [List.toFinset_cons, Finset.mem_insert, eq_iff_iff] at this
            rw [List.mem_toFinset, List.mem_toFinset]
            constructor
            · intro hbx
              rcases this.1 (Or.inr (List.mem_toFinset.2 hbx)) with h | h
              · exact absurd h hb
              · exact List.mem_toFinset.1 h
            · intro hby
              rcases this.2 (Or.inr (List.mem_toFinset.2 hby)) with h | h
              · exact absurd h hb
              · exact List.mem_toFinset.1 h
        rw [ih hl hx' hy' this]

theorem nodup_powerset {l : List String} (h : l.Nodup) : (powerset l).Nodup := by
  rw [(powerset_perm l).nodup_iff]
  refine (List.nodup_sublists'.2 h).map_on ?_
  intro x hx y hy hxy
  exact sublist_toFinset_inj h (List.mem_sublists'.1 hx) (List.mem_sublists'.1 hy) hxy

theorem length_powerset (l : List String) : (powerset l).length = 2 ^ l.length := by
  rw [(powerset_perm l).length_eq, List.length_map, List.length_sublists']

theorem toFinset_setDiff (names : List String) (s : Finset String) :
    (setDiff names s).toFinset = names.toFinset \ s := by
  ext a
  simp [setDiff]

theorem nodup_setDiff {names : List String} (h : names.Nodup) (s : Finset String) :
    (setDiff names s).Nodup :=
  h.filter _

theorem length_setDiff {names : List String} (h : names.Nodup) {s : Finset String}
    (hs : s ⊆ names.toFinset) :
    (setDiff names s).length = names.length - s.card := by
  rw [← List.toFinset_card_of_nodup (nodup_setDiff h s), toFinset_setDiff,
    Finset.card_sdiff hs, List.toFinset_card_of_nodup h]

theorem mem_genePairs {names : List String} {og tg : Finset String} :
    (og, tg) ∈ genePairs names ↔ og ⊆ names.toFinset ∧ tg ⊆ names.toFinset \ og := by
  rw [genePairs, List.mem_flatMap]
  constructor
  · rintro ⟨og', hog', hmem⟩
    rw [List.mem_map] at hmem
    obtain ⟨tg', htg', heq⟩ := hmem
    cases heq
    refine ⟨mem_powerset.1 hog', ?_⟩
    have := mem_powerset.1 htg'
    rwa [toFinset_setDiff] at this
  · rintro ⟨h1, h2⟩
    refine ⟨og, mem_powerset.2 h1, List.mem_map.2 ⟨tg, ?_, rfl⟩⟩
    exact mem_powerset.2 (by rw [toFinset_setDiff]; exact h2)

theorem nodup_genePairs {names : List String} (h : names.Nodup) :
    (genePairs names).Nodup := by
  rw [genePairs, List.nodup_flatMap]
  constructor
  · intro og hog
    refine (nodup_powerset (nodup_setDiff h og)).map_on ?_
    intro x _ y _ hxy
    exact (Prod.ext_iff.1 hxy).2
  · refine (nodup_powerset h).imp ?_
    intro og og' hne
    intro pair hp1 hp2
    rw [List.mem_map] at hp1 hp2
    obtain ⟨tg1, _, rfl⟩ := hp1
    obtain ⟨tg2, _, heq⟩ := hp2
    exact hne ((Prod.ext_iff.1 heq).1.symm)

theorem sum_map_list_range (f : ℕ → ℕ) (n : ℕ) :
    ((List.range n).map f).sum = ∑ r ∈ Finset.range n, f r := by
  induction n with
  | zero => simp
  | succ n ih =>
    rw [List.range_succ, List.map_append, List.sum_append, Finset.sum_range_succ, ih]
    simp

theorem sum_choose_mul_pow (n : ℕ) :
    (∑ r ∈ Finset.range (n + 1), Nat.choose n r * 2 ^ (n - r)) = 3 ^ n := by
  have h := add_pow (1 : ℕ) 2 n
  norm_num at h
  rw [h]
  exact Finset.sum_congr rfl fun r _ => mul_comm ..

theorem combinations_map_sum {names : List String} (h : names.Nodup) (r : Nat) :
    ((combinations names r).map
        ((fun og => 2 ^ (names.length - og.card)) ∘ List.toFinset)).sum =
      Nat.choose names.length r * 2 ^ (names.length - r) := by
  have hconst : ∀ x ∈ (combinations names r).map
      ((fun og => 2 ^ (names.length - og.card)) ∘ List.toFinset),
      x = 2 ^ (names.length - r) := by
    intro x hx
    rw [List.mem_map] at hx
    obtain ⟨y, hy, rfl⟩ := hx
    obtain ⟨hsub, hlen⟩ := List.mem_sublistsLen.1 hy
    show 2 ^ (names.length - y.toFinset.card) = 2 ^ (names.length - r)
    rw [List.toFinset_card_of_nodup (hsub.nodup h), hlen]
  rw [List.eq_replicate_of_mem hconst, List.sum_replicate, List.length_map, smul_eq_mul]
  rw [combinations, List.length_sublistsLen]

theorem length_genePairs {names : List String} (h : names.Nodup) :
    (genePairs names).length = 3 ^ names.length := by
  rw [genePairs, List.length_flatMap]
  simp only [Function.comp_def]
  have step1 : ((powerset names).map fun og =>
      ((powerset (setDiff names og)).map fun two_genes => (og, two_genes)).length) =
      (powerset names).map fun og => 2 ^ (names.length - og.card) := by
    refine List.map_congr_left ?_
    intro og hog
    rw [List.length_map, length_powerset, length_setDiff h (mem_powerset.1 hog)]
  rw [step1, powerset, List.map_map, List.map_flatMap, List.flatMap_def,
    List.sum_flatten, List.map_map]
  have step2 : ((List.range (names.length + 1)).map
      (List.sum ∘ fun r => ((combinations names r).map
        ((fun og => 2 ^ (names.length - og.card)) ∘ List.toFinset)))).sum =
      ((List.range (names.length + 1)).map
        (fun r => Nat.choose names.length r * 2 ^ (names.length - r))).sum := by
    congr 1
    refine List.map_congr_left ?_
    intro r _
    exact combinations_map_sum h r
  rw [step2, sum_map_list_range, sum_choose_mul_pow]

/-- **C5.** The nested gene-count enumeration visits exactly the pairs
`(one_gene, two_genes)` with `one_gene` an arbitrary subset of the people and
`two_genes` a subset of the remaining people, visits each such pair exactly
once (the visit list has no duplicates), and for an n-person set visits exactly
3^n gene-count assignments. -/
theorem genePairs_enumeration (names : List String) (h : names.Nodup) :
    (genePairs names).Nodup ∧
    (∀ og tg : Finset String, (og, tg) ∈ genePairs names ↔
        og ⊆ names.toFinset ∧ tg ⊆ names.toFinset \ og) ∧
    (genePairs names).length = 3 ^ names.length :=
  ⟨nodup_genePairs h, fun _ _ => mem_genePairs, length_genePairs h⟩

theorem genePairs_enumeration_witness :
    (["a", "b"] : List String).Nodup ∧
    ((genePairs ["a", "b"]).Nodup ∧
     (∀ og tg : Finset String, (og, tg) ∈ genePairs ["a", "b"] ↔
         og ⊆ (["a", "b"] : List String).toFinset ∧
         tg ⊆ (["a", "b"] : List String).toFinset \ og) ∧
     (genePairs ["a", "b"]).length = 3 ^ (["a", "b"] : List String).length) :=
  ⟨by decide, genePairs_enumeration ["a", "b"] (by decide)⟩

end Heredity
